import Mathlib

/-!
# Generic examples: binary search tree, Map / Filter / Reduce

A shallow embedding of `examples/tree.go`, `examples/functional.go` and
`examples/mapkeys.go`.

* A Go `*node[T]` (a nullable, exclusively owned pointer to a node) is a value of the
  inductive type `node T`: `node.nil` is the nil pointer, `node.mk left right val` a pointer
  to a node with these three fields (the field order of the Go struct).
* A Go `**node[T]` as produced by `find` (the address of `bt.root`, or of the `left` / `right`
  field of a node of the tree) is a `Ptr`: the list of fields followed from `&bt.root`.
  `load` is `*pl`, `store` is `*pl = n`.
* The result of the comparator is a Go `int`; `find` only tests it against `0`, so the
  embedding takes a comparator with values in `Int`. Where a claim is about a comparator
  as an order, the field `cmp` holds a pure function that returns on every call (`Tree`).
  Where a claim is about what running the code gives for any value the field can hold,
  the field is a `GoFunc`: nil, or a closure over captured state whose call returns or
  panics, and running gives a `Run`.
* Go slices are lists.
* A Go `map[K]V` is the list of its entries (keys unique, `isMap`); `range` over the map
  visits every entry once in an unspecified order, that is, it visits a permutation of
  the entries. The key extractors take the entries in the order in which `range` visits them.
-/

namespace Generics

/-! ## Data model (tree.go) -/

/-- A `*node[T]`: nil, or a node with fields `left`, `right`, `val`. -/
inductive node (T : Type) where
  | nil : node T
  | mk (left right : node T) (val : T) : node T
  deriving Repr, DecidableEq

/-- The struct `Tree[T]`: the comparator and the root link. -/
structure Tree (T : Type) where
  cmp : T → T → Int
  root : node T

/-- One of the two link fields of a node. -/
inductive Side where
  | left
  | right
  deriving Repr, DecidableEq

/-- A `**node[T]`: the link reached from `&bt.root` by following the listed fields. -/
abbrev Ptr := List Side

variable {T : Type}

/-- The test `p == nil` on a `*node[T]`. -/
def node.isNil : node T → Bool
  | .nil => true
  | .mk _ _ _ => false

/-- The value `*pl` of the link `pl` of the tree rooted at the first argument.
(A path that leaves the tree denotes no link; `find` never produces one, and it reads as nil.) -/
def load : node T → Ptr → node T
  | n, [] => n
  | .nil, _ :: _ => .nil
  | .mk l _ _, Side.left :: pl => load l pl
  | .mk _ r _, Side.right :: pl => load r pl

/-- The assignment `*pl = n`: the tree with the link `pl` replaced by `n`.
(On a path that leaves the tree nothing is written.) -/
def store : node T → Ptr → node T → node T
  | _, [], n => n
  | .nil, _ :: _, _ => .nil
  | .mk l r v, Side.left :: pl, n => .mk (store l pl n) r v
  | .mk l r v, Side.right :: pl, n => .mk l (store r pl n) v

/-- The loop of `find`, started with `*pl` equal to the first tree argument: the fields
followed until `*pl` is nil or a node comparing equal to `val` is met. -/
def findFrom (cmp : T → T → Int) (val : T) : node T → Ptr
  | .nil => []
  | .mk l r v =>
    let c := cmp val v
    if c < 0 then Side.left :: findFrom cmp val l
    else if c > 0 then Side.right :: findFrom cmp val r
    else []

/-- The method `find`: the link holding a node equal to `val`, or the empty link where
such a node would be attached. -/
def Tree.find (bt : Tree T) (val : T) : Ptr :=
  findFrom bt.cmp val bt.root

/-- The method `Insert`: the tree after the call and the returned boolean. -/
def Tree.Insert (bt : Tree T) (val : T) : Tree T × Bool :=
  let pl := bt.find val
  if (load bt.root pl).isNil = false then
    (bt, false)
  else
    ({ bt with root := store bt.root pl (.mk .nil .nil val) }, true)

/-- A freshly declared `Tree[T]{cmp: cmp}`: the root is nil. -/
def Tree.new (cmp : T → T → Int) : Tree T :=
  { cmp := cmp, root := .nil }

/-- The loops of `main`: the values are inserted one after another; the final tree and
the list of returned booleans. -/
def insertAll (bt : Tree T) : List T → Tree T × List Bool
  | [] => (bt, [])
  | v :: vs =>
    let r := bt.Insert v
    let rs := insertAll r.1 vs
    (rs.1, r.2 :: rs.2)

/-- Reduction of an integer to the range of a 64-bit two's complement `int`. -/
def wrap64 (x : Int) : Int :=
  (x + 2 ^ 63) % 2 ^ 64 - 2 ^ 63

/-- A value of Go's `int` (64 bit). -/
def isInt64 (x : Int) : Prop :=
  -(2 ^ 63) ≤ x ∧ x < 2 ^ 63

instance (x : Int) : Decidable (isInt64 x) := by
  unfold isInt64; infer_instance

/-- The comparator of `intTree` in `main`: `a - b` in `int` arithmetic. -/
def intCmp (a b : Int) : Int :=
  wrap64 (a - b)

/-- A Go `string`: a sequence of bytes; `<` on Go strings is the lexicographic order on
the bytes, which is `<` on lists of numbers. -/
abbrev GoString := List Nat

/-- The Go string written as an (ASCII) literal. -/
def str (s : String) : GoString :=
  s.toList.map Char.toNat

/-- The comparator of `stringTree` in `main`. -/
def stringCmp (a b : GoString) : Int :=
  if a < b then -1
  else if a > b then 1
  else 0

/-- The recursion that `Insert` performs through `find`, `load` and `store`, written
directly on the root link: the new root link and the returned boolean. -/
def insNode (cmp : T → T → Int) (val : T) : node T → node T × Bool
  | .nil => (.mk .nil .nil val, true)
  | .mk l r v =>
    if cmp val v < 0 then (.mk (insNode cmp val l).1 r v, (insNode cmp val l).2)
    else if cmp val v > 0 then (.mk l (insNode cmp val r).1 v, (insNode cmp val r).2)
    else (.mk l r v, false)

/-- The root link and the booleans after inserting a list of values, by `insNode`. -/
def insNodes (cmp : T → T → Int) (n : node T) : List T → node T × List Bool
  | [] => (n, [])
  | v :: vs => ((insNodes cmp (insNode cmp v n).1 vs).1,
      (insNode cmp v n).2 :: (insNodes cmp (insNode cmp v n).1 vs).2)

/-! ## Observations on trees -/

/-- The values of a tree, listed in order (left subtree, node, right subtree). -/
def node.vals : node T → List T
  | .nil => []
  | .mk l r v => l.vals ++ v :: r.vals

/-- Number of nodes. -/
def node.size : node T → Nat
  | .nil => 0
  | .mk l r _ => l.size + r.size + 1

/-- Number of nodes on the longest path from the root to a leaf. -/
def node.height : node T → Nat
  | .nil => 0
  | .mk l r _ => max l.height r.height + 1

/-- The value of the node held by the link `pl`, if the link exists and is not nil. -/
def valAt : node T → Ptr → Option T
  | .nil, _ => none
  | .mk _ _ v, [] => some v
  | .mk l _ _, Side.left :: pl => valAt l pl
  | .mk _ r _, Side.right :: pl => valAt r pl

/-- The path `pl` denotes a link of the tree: the root link, or a field of an existing node. -/
def isLink : node T → Ptr → Prop
  | _, [] => True
  | .nil, _ :: _ => False
  | .mk l _ _, Side.left :: pl => isLink l pl
  | .mk _ r _, Side.right :: pl => isLink r pl

/-- The search-tree order: at every node the values of the left subtree compare less than
the node's value and the values of the right subtree compare greater. -/
def ordered (cmp : T → T → Int) : node T → Prop
  | .nil => True
  | .mk l r v =>
    (∀ x ∈ l.vals, cmp x v < 0) ∧ (∀ x ∈ r.vals, cmp x v > 0) ∧ ordered cmp l ∧ ordered cmp r

/-- A consistent three-way total order: reflexive, the sign flips when the arguments are
swapped, and the induced "less or equal" is transitive. -/
structure IsTotalOrder (cmp : T → T → Int) : Prop where
  refl : ∀ a, cmp a a = 0
  antisymm : ∀ a b, Int.sign (cmp a b) = - Int.sign (cmp b a)
  trans : ∀ a b c, cmp a b ≤ 0 → cmp b c ≤ 0 → cmp a c ≤ 0

/-- The values of a sequence whose `Insert` returned true. -/
def accepted : List T → List Bool → List T
  | v :: vs, true :: bs => v :: accepted vs bs
  | _ :: vs, false :: bs => accepted vs bs
  | _, _ => []

/-- The tree stores the values inserted so far: it is ordered, every stored value is one
of the inserted values, and every inserted value compares equal to a stored one. -/
def tracks (cmp : T → T → Int) (n : node T) (hist : List T) : Prop :=
  ordered cmp n ∧ (∀ y ∈ n.vals, y ∈ hist) ∧ (∀ x ∈ hist, ∃ y ∈ n.vals, cmp x y = 0)

/-! ## Running `find` and `Insert` with any value of the field `cmp` -/

/-- What running a piece of Go code under a budget gives: it returns a value, it panics, or
the budget is used up before it has done either. -/
inductive Run (α : Type) where
  | returns (a : α) : Run α
  | panics : Run α
  | unfinished : Run α
  deriving Repr, DecidableEq

/-- A Go value of type `func(a, b T) int` as the field `cmp` can hold it: nil (`none`, the
value in a zero `Tree`), or a closure over captured state of type `S`; a call of the closure
returns an `int` and the captured state after the call, or panics (`none`). -/
abbrev GoFunc (S T : Type) := Option (S → T → T → Option (Int × S))

/-- The func value of a pure comparator: a call returns `cmp a b` and changes nothing. -/
def pureFunc {S : Type} (cmp : T → T → Int) : GoFunc S T :=
  some (fun s a b => some (cmp a b, s))

/-- The loop of `find` run with a budget of comparator calls, started at the link `pl` with
captured state `s`: each iteration tests `*pl != nil` and, when a node is there, spends one
call `bt.cmp(val, (*pl).val)`, which panics when `cmp` is nil or the closure panics, and
otherwise moves to the address of the `left` or `right` field or returns; `unfinished` when
a call is needed and the budget is used up. -/
def findLoop {S : Type} (cmp : GoFunc S T) (root : node T) (val : T) :
    Nat → Ptr → S → Run (Ptr × S)
  | 0, pl, s =>
    match load root pl with
    | .nil => .returns (pl, s)
    | .mk _ _ _ => .unfinished
  | fuel + 1, pl, s =>
    match load root pl with
    | .nil => .returns (pl, s)
    | .mk _ _ v =>
      match cmp with
      | none => .panics
      | some f =>
        match f s val v with
        | none => .panics
        | some (c, s2) =>
          if c < 0 then findLoop cmp root val fuel (pl ++ [Side.left]) s2
          else if c > 0 then findLoop cmp root val fuel (pl ++ [Side.right]) s2
          else .returns (pl, s2)

/-- The method `Insert` on a tree with field `cmp` and root link `root`, with `find` run under
a budget of comparator calls: the root link after the call, the returned boolean and the
captured state of the comparator, or a panic. -/
def InsertWithin {S : Type} (cmp : GoFunc S T) (root : node T) (val : T) (fuel : Nat) (s : S) :
    Run (node T × Bool × S) :=
  match findLoop cmp root val fuel [] s with
  | .panics => .panics
  | .unfinished => .unfinished
  | .returns (pl, s2) =>
    if (load root pl).isNil = false then
      .returns (root, false, s2)
    else
      .returns (store root pl (.mk .nil .nil val), true, s2)

/-! ## Data model (functional.go) -/

variable {R : Type}

/-- The loop of `Map` from index `i` on: `out[i] = fn(v)` for each remaining element. -/
def mapLoop (fn : T → R) : Nat → List T → List R → List R
  | _, [], out => out
  | i, v :: vs, out => mapLoop fn (i + 1) vs (out.set i (fn v))

/-- The function `Map`; `make([]R, len(slice))` is a list of zero values (`default`). -/
def Map [Inhabited R] (slice : List T) (fn : T → R) : List R :=
  mapLoop fn 0 slice (List.replicate slice.length default)

/-- The loop of `Filter`: `out = append(out, v)` for each remaining element that is kept. -/
def filterLoop (keep : T → Bool) : List T → List T → List T
  | [], out => out
  | v :: vs, out => filterLoop keep vs (if keep v then out ++ [v] else out)

/-- The function `Filter`; `var out []T` is the empty slice. -/
def Filter (slice : List T) (keep : T → Bool) : List T :=
  filterLoop keep slice []

/-- The loop of `Reduce`: `acc = fn(acc, v)` for each remaining element. -/
def reduceLoop (fn : R → T → R) : List T → R → R
  | [], acc => acc
  | v :: vs, acc => reduceLoop fn vs (fn acc v)

/-- The function `Reduce`. -/
def Reduce (slice : List T) (init : R) (fn : R → T → R) : R :=
  reduceLoop fn slice init

/-! ## Data model (mapkeys.go) -/

section mapkeys
variable {Key Value : Type}

/-- The entries of a Go map: no key occurs twice. -/
def isMap (entries : List (Key × Value)) : Prop :=
  (entries.map Prod.fst).Nodup

instance [DecidableEq Key] (entries : List (Key × Value)) : Decidable (isMap entries) := by
  unfold isMap; infer_instance

/-- The loop of `MapKeys` over the entries as `range` visits them:
`collectedKeys = append(collectedKeys, key)`. -/
def collectKeys : List (Key × Value) → List Key → List Key
  | [], collectedKeys => collectedKeys
  | (key, _) :: rest, collectedKeys => collectKeys rest (collectedKeys ++ [key])

/-- The function `MapKeys`; `make([]Key, 0, len(inputMap))` is the empty slice. -/
def MapKeys (inputMap : List (Key × Value)) : List Key :=
  collectKeys inputMap []

/-- The loop of `ExtractStringIntMapKeys`: `sliceOfKeys = append(sliceOfKeys, key)`. -/
def stringIntKeys : List (GoString × Int) → List GoString → List GoString
  | [], sliceOfKeys => sliceOfKeys
  | (key, _) :: rest, sliceOfKeys => stringIntKeys rest (sliceOfKeys ++ [key])

/-- The function `ExtractStringIntMapKeys`, for `map[string]int` only. -/
def ExtractStringIntMapKeys (stringIntMap : List (GoString × Int)) : List GoString :=
  stringIntKeys stringIntMap []

/-- The loop of `ExtractIntBoolMapKeys`: `sliceOfKeys = append(sliceOfKeys, key)`. -/
def intBoolKeys : List (Int × Bool) → List Int → List Int
  | [], sliceOfKeys => sliceOfKeys
  | (key, _) :: rest, sliceOfKeys => intBoolKeys rest (sliceOfKeys ++ [key])

/-- The function `ExtractIntBoolMapKeys`, for `map[int]bool` only. -/
def ExtractIntBoolMapKeys (intBoolMap : List (Int × Bool)) : List Int :=
  intBoolKeys intBoolMap []

end mapkeys

/-! ## Degenerate trees -/

/-- The tree holding the listed values on a chain of `right` links: every `left` link
is nil. -/
def spineRight : List T → node T
  | [] => .nil
  | v :: vs => .mk .nil (spineRight vs) v

/-- The tree holding the listed values on a chain of `left` links: every `right` link
is nil. -/
def spineLeft : List T → node T
  | [] => .nil
  | v :: vs => .mk (spineLeft vs) .nil v

/-! ## The comparator as an order -/

section order
variable {cmp : T → T → Int}

theorem IsTotalOrder.pos_of_neg (h : IsTotalOrder cmp) {a b : T} (hab : cmp a b < 0) :
    0 < cmp b a := by
  have hs := h.antisymm a b
  rw [Int.sign_eq_neg_one_of_neg hab] at hs
  have h1 : Int.sign (cmp b a) = 1 := by omega
  exact Int.sign_eq_one_iff_pos.mp h1

theorem IsTotalOrder.neg_of_pos (h : IsTotalOrder cmp) {a b : T} (hab : 0 < cmp a b) :
    cmp b a < 0 := by
  have hs := h.antisymm a b
  rw [Int.sign_eq_one_of_pos hab] at hs
  have h1 : Int.sign (cmp b a) = -1 := by omega
  exact Int.sign_eq_neg_one_iff_neg.mp h1

theorem IsTotalOrder.symm (h : IsTotalOrder cmp) {a b : T} (hab : cmp a b = 0) :
    cmp b a = 0 := by
  have hs := h.antisymm a b
  rw [hab] at hs
  have h1 : Int.sign (cmp b a) = 0 := by simpa using hs.symm
  exact Int.sign_eq_zero_iff_zero.mp h1

theorem IsTotalOrder.le_flip (h : IsTotalOrder cmp) {a b : T} (hab : 0 ≤ cmp a b) :
    cmp b a ≤ 0 := by
  rcases hab.lt_or_eq with hlt | heq
  · exact (h.neg_of_pos hlt).le
  · exact (h.symm heq.symm).le

theorem IsTotalOrder.eq_trans (h : IsTotalOrder cmp) {a b c : T} (hab : cmp a b = 0)
    (hbc : cmp b c = 0) : cmp a c = 0 := by
  have h1 := h.trans a b c hab.le hbc.le
  have h2 := h.trans c b a (h.symm hbc).le (h.symm hab).le
  by_contra hne
  have hlt : cmp a c < 0 := lt_of_le_of_ne h1 hne
  have := h.pos_of_neg hlt
  omega

theorem IsTotalOrder.lt_of_lt_of_le (h : IsTotalOrder cmp) {a b c : T} (hab : cmp a b < 0)
    (hbc : cmp b c ≤ 0) : cmp a c < 0 := by
  have h1 := h.trans a b c hab.le hbc
  by_contra hnot
  have hac : cmp a c = 0 := by omega
  have hca := h.symm hac
  have hba := h.trans b c a hbc hca.le
  have := h.pos_of_neg hab
  omega

theorem IsTotalOrder.lt_of_le_of_lt (h : IsTotalOrder cmp) {a b c : T} (hab : cmp a b ≤ 0)
    (hbc : cmp b c < 0) : cmp a c < 0 := by
  have h1 := h.trans a b c hab hbc.le
  by_contra hnot
  have hac : cmp a c = 0 := by omega
  have hca := h.symm hac
  have hcb := h.trans c a b hca.le hab
  have := h.pos_of_neg hbc
  omega

theorem IsTotalOrder.gt_trans (h : IsTotalOrder cmp) {a b c : T} (hab : cmp a b > 0)
    (hbc : cmp b c > 0) : cmp a c > 0 :=
  h.pos_of_neg (h.lt_of_lt_of_le (h.neg_of_pos hbc) (h.neg_of_pos hab).le)

end order

/-! ## `Insert` through `find`, `load` and `store` is the recursion `insNode` -/

section core
variable (cmp : T → T → Int)

theorem isLink_findFrom (val : T) (n : node T) : isLink n (findFrom cmp val n) := by
  induction n with
  | nil => simp [findFrom, isLink]
  | mk l r v ihl ihr =>
    simp only [findFrom]
    split_ifs <;> simp [isLink, ihl, ihr]

theorem load_findFrom (val : T) (n : node T) :
    (load n (findFrom cmp val n)).isNil = (insNode cmp val n).2 := by
  induction n with
  | nil => simp [findFrom, load, insNode, node.isNil]
  | mk l r v ihl ihr =>
    simp only [findFrom, insNode]
    split_ifs
    · simpa [load] using ihl
    · simpa [load] using ihr
    · simp [load, node.isNil]

theorem store_findFrom (val : T) (n : node T) (h : (insNode cmp val n).2 = true) :
    store n (findFrom cmp val n) (.mk .nil .nil val) = (insNode cmp val n).1 := by
  induction n with
  | nil => simp [findFrom, store, insNode]
  | mk l r v ihl ihr =>
    simp only [findFrom, insNode] at h ⊢
    split_ifs at h ⊢ with h1 h2
    · simp [store, ihl h]
    · simp [store, ihr h]

theorem insNode_false (val : T) (n : node T) (h : (insNode cmp val n).2 = false) :
    (insNode cmp val n).1 = n := by
  induction n with
  | nil => simp [insNode] at h
  | mk l r v ihl ihr =>
    simp only [insNode] at h ⊢
    split_ifs at h ⊢ with h1 h2
    · simp [ihl h]
    · simp [ihr h]
    · rfl

theorem Insert_eq (bt : Tree T) (val : T) :
    bt.Insert val = ({ bt with root := (insNode bt.cmp val bt.root).1 },
      (insNode bt.cmp val bt.root).2) := by
  unfold Tree.Insert Tree.find
  simp only [load_findFrom]
  cases h : (insNode bt.cmp val bt.root).2
  · simp [insNode_false bt.cmp val bt.root h]
  · simp [store_findFrom bt.cmp val bt.root h]

theorem insertAll_eq (bt : Tree T) (vs : List T) :
    insertAll bt vs = ({ bt with root := (insNodes bt.cmp bt.root vs).1 },
      (insNodes bt.cmp bt.root vs).2) := by
  induction vs generalizing bt with
  | nil => simp [insertAll, insNodes]
  | cons v vs ih =>
    simp only [insertAll, insNodes, Insert_eq]
    rw [ih]

theorem load_findFrom_mk (val : T) (n l r : node T) (w : T)
    (h : load n (findFrom cmp val n) = .mk l r w) : cmp val w = 0 := by
  induction n with
  | nil => simp [findFrom, load] at h
  | mk l2 r2 v ihl ihr =>
    simp only [findFrom] at h
    split_ifs at h with h1 h2
    · exact ihl (by simpa [load] using h)
    · exact ihr (by simpa [load] using h)
    · simp only [load, node.mk.injEq] at h
      obtain ⟨_, _, rfl⟩ := h
      omega

theorem load_store (n m : node T) (pl : Ptr) (h : isLink n pl) : load (store n pl m) pl = m := by
  induction pl generalizing n with
  | nil => simp [store, load]
  | cons s pl ih =>
    cases n with
    | nil => simp [isLink] at h
    | mk l r v =>
      cases s
      · simpa [store, load] using ih l (by simpa [isLink] using h)
      · simpa [store, load] using ih r (by simpa [isLink] using h)

theorem valAt_store (n : node T) (val : T) (pl : Ptr) (h : isLink n pl)
    (hnil : load n pl = .nil) (p : Ptr) :
    valAt (store n pl (.mk .nil .nil val)) p = if p = pl then some val else valAt n p := by
  induction pl generalizing n p with
  | nil =>
    have hn : n = .nil := by simpa [load] using hnil
    subst hn
    cases p with
    | nil => simp [store, valAt]
    | cons s p => cases s <;> simp [store, valAt]
  | cons s pl ih =>
    cases n with
    | nil => simp [isLink] at h
    | mk l r v =>
      cases s
      · cases p with
        | nil => simp [store, valAt]
        | cons s2 p =>
          cases s2
          · simpa [store, valAt] using ih l (by simpa [isLink] using h)
              (by simpa [load] using hnil) p
          · simp [store, valAt]
      · cases p with
        | nil => simp [store, valAt]
        | cons s2 p =>
          cases s2
          · simp [store, valAt]
          · simpa [store, valAt] using ih r (by simpa [isLink] using h)
              (by simpa [load] using hnil) p

theorem size_insNode (val : T) (n : node T) :
    (insNode cmp val n).1.size = n.size + if (insNode cmp val n).2 then 1 else 0 := by
  induction n with
  | nil => simp [insNode, node.size]
  | mk l r v ihl ihr =>
    simp only [insNode]
    split_ifs <;> simp_all [node.size] <;> omega

theorem isNil_eq_true (n : node T) : n.isNil = true ↔ n = .nil := by
  cases n <;> simp [node.isNil]

theorem load_nil (pl : Ptr) : load (node.nil : node T) pl = .nil := by
  cases pl <;> simp [load]

theorem load_append (n : node T) (p q : Ptr) : load n (p ++ q) = load (load n p) q := by
  induction p generalizing n with
  | nil => simp [load]
  | cons s p ih =>
    cases n with
    | nil => simp [load, load_nil]
    | mk l r v => cases s <;> simp [load, ih]

/-- With a pure comparator and a budget of at least the height below the link, the loop of
`find` returns what `findFrom` computes and leaves the state alone. -/
theorem findLoop_pureFunc {S : Type} (root : node T) (val : T) (fuel : Nat) (pl : Ptr) (s : S)
    (h : (load root pl).height ≤ fuel) :
    findLoop (pureFunc cmp) root val fuel pl s
      = .returns (pl ++ findFrom cmp val (load root pl), s) := by
  induction fuel generalizing pl with
  | zero =>
    cases hn : load root pl with
    | nil => simp [findLoop, hn, findFrom]
    | mk l r v => simp [hn, node.height] at h
  | succ fuel ih =>
    cases hn : load root pl with
    | nil => simp [findLoop, hn, findFrom]
    | mk l r v =>
      rw [hn] at h
      simp only [node.height] at h
      have hl : load root (pl ++ [Side.left]) = l := by simp [load_append, hn, load]
      have hr : load root (pl ++ [Side.right]) = r := by simp [load_append, hn, load]
      simp only [findLoop, hn, findFrom, pureFunc]
      split_ifs
      · have := ih (pl ++ [Side.left]) (by rw [hl]; omega)
        simp only [pureFunc] at this
        rw [this, hl]
        simp
      · have := ih (pl ++ [Side.right]) (by rw [hr]; omega)
        simp only [pureFunc] at this
        rw [this, hr]
        simp
      · simp

/-- With a closure whose calls all return and a budget of at least the height below the
link, the loop of `find` returns a link of the tree, at most that height further down. -/
theorem findLoop_returns {S : Type} (f : S → T → T → Option (Int × S))
    (hf : ∀ s a b, ∃ c s2, f s a b = some (c, s2)) (root : node T) (val : T) (fuel : Nat)
    (pl : Ptr) (s : S) (h : (load root pl).height ≤ fuel) :
    ∃ q s2, findLoop (some f) root val fuel pl s = .returns (pl ++ q, s2) ∧
      isLink (load root pl) q ∧ q.length ≤ (load root pl).height := by
  induction fuel generalizing pl s with
  | zero =>
    cases hn : load root pl with
    | nil => exact ⟨[], s, by simp [findLoop, hn], by simp [isLink], by simp⟩
    | mk l r v => simp [hn, node.height] at h
  | succ fuel ih =>
    cases hn : load root pl with
    | nil => exact ⟨[], s, by simp [findLoop, hn], by simp [isLink], by simp⟩
    | mk l r v =>
      rw [hn] at h
      simp only [node.height] at h
      have hl : load root (pl ++ [Side.left]) = l := by simp [load_append, hn, load]
      have hr : load root (pl ++ [Side.right]) = r := by simp [load_append, hn, load]
      obtain ⟨c, s1, hc⟩ := hf s val v
      by_cases h1 : c < 0
      · obtain ⟨q, s2, hq, hlink, hlen⟩ := ih (pl ++ [Side.left]) s1 (by rw [hl]; omega)
        rw [hl] at hlink hlen
        refine ⟨Side.left :: q, s2, ?_, by simpa [isLink] using hlink, ?_⟩
        · simp only [findLoop, hn, hc, h1, if_true]
          rw [hq]
          simp
        · simp only [List.length_cons, node.height]
          omega
      · by_cases h2 : c > 0
        · obtain ⟨q, s2, hq, hlink, hlen⟩ := ih (pl ++ [Side.right]) s1 (by rw [hr]; omega)
          rw [hr] at hlink hlen
          refine ⟨Side.right :: q, s2, ?_, by simpa [isLink] using hlink, ?_⟩
          · simp only [findLoop, hn, hc, h1, h2, if_true, if_false]
            rw [hq]
            simp
          · simp only [List.length_cons, node.height]
            omega
        · refine ⟨[], s1, ?_, by simp [isLink], by simp⟩
          simp [findLoop, hn, hc, h1, h2]

theorem length_findFrom (val : T) (n : node T) : (findFrom cmp val n).length ≤ n.height := by
  induction n with
  | nil => simp [findFrom]
  | mk l r v ihl ihr =>
    simp only [findFrom, node.height]
    split_ifs <;> simp <;> omega

/-- A value found on a node is still found at the same link, on a node with the same value,
after any other insertion. -/
theorem find_stable_insNode (val x : T) (n l r : node T) (w : T)
    (h : load n (findFrom cmp val n) = .mk l r w) :
    findFrom cmp val (insNode cmp x n).1 = findFrom cmp val n ∧
    ∃ l2 r2, load (insNode cmp x n).1 (findFrom cmp val n) = .mk l2 r2 w := by
  induction n with
  | nil => simp [findFrom, load] at h
  | mk a b u iha ihb =>
    by_cases h1 : cmp val u < 0
    · have hf : findFrom cmp val (.mk a b u) = Side.left :: findFrom cmp val a := by
        simp [findFrom, h1]
      rw [hf] at h ⊢
      simp only [load] at h
      obtain ⟨e, l2, r2, hl⟩ := iha h
      simp only [insNode]
      split_ifs
      · simp only [findFrom, h1, if_true, load, e, true_and]
        exact ⟨l2, r2, hl⟩
      · simp only [findFrom, h1, if_true, load, true_and]
        exact ⟨l, r, h⟩
      · simp only [findFrom, h1, if_true, load, true_and]
        exact ⟨l, r, h⟩
    · by_cases h2 : cmp val u > 0
      · have hf : findFrom cmp val (.mk a b u) = Side.right :: findFrom cmp val b := by
          simp [findFrom, h1, h2]
        rw [hf] at h ⊢
        simp only [load] at h
        obtain ⟨e, l2, r2, hl⟩ := ihb h
        simp only [insNode]
        split_ifs
        · simp only [findFrom, h1, h2, if_true, if_false, load, true_and]
          exact ⟨l, r, h⟩
        · simp only [findFrom, h1, h2, if_true, if_false, load, e, true_and]
          exact ⟨l2, r2, hl⟩
        · simp only [findFrom, h1, h2, if_true, if_false, load, true_and]
          exact ⟨l, r, h⟩
      · have hf : findFrom cmp val (.mk a b u) = [] := by
          simp [findFrom, h1, h2]
        rw [hf] at h ⊢
        simp only [load, node.mk.injEq] at h
        obtain ⟨_, _, rfl⟩ := h
        simp only [insNode]
        split_ifs <;> simp [findFrom, h1, h2, load]

/-- An accepted value is found, right after its insertion, at the link where it was put. -/
theorem find_after_insNode (val : T) (hrefl : cmp val val = 0) (n : node T)
    (h : (insNode cmp val n).2 = true) :
    findFrom cmp val (insNode cmp val n).1 = findFrom cmp val n ∧
    load (insNode cmp val n).1 (findFrom cmp val n) = .mk .nil .nil val := by
  induction n with
  | nil => simp [insNode, findFrom, load, hrefl]
  | mk a b u iha ihb =>
    simp only [insNode] at h ⊢
    split_ifs at h ⊢ with h1 h2
    · obtain ⟨e, hl⟩ := iha h
      simp [findFrom, h1, load, e, hl]
    · obtain ⟨e, hl⟩ := ihb h
      simp [findFrom, h1, h2, load, e, hl]

theorem find_stable_insNodes (val : T) (xs : List T) (n l r : node T) (w : T)
    (h : load n (findFrom cmp val n) = .mk l r w) :
    findFrom cmp val (insNodes cmp n xs).1 = findFrom cmp val n ∧
    ∃ l2 r2, load (insNodes cmp n xs).1 (findFrom cmp val n) = .mk l2 r2 w := by
  induction xs generalizing n l r with
  | nil => exact ⟨rfl, l, r, h⟩
  | cons x xs ih =>
    obtain ⟨e, l2, r2, hl⟩ := find_stable_insNode cmp val x n l r w h
    have := ih (insNode cmp x n).1 l2 r2 (by rw [e]; exact hl)
    simpa [insNodes, e] using this

theorem findFrom_congr (c2 : T → T → Int)
    (h : ∀ a b, Int.sign (cmp a b) = Int.sign (c2 a b)) (val : T) (n : node T) :
    findFrom cmp val n = findFrom c2 val n := by
  induction n with
  | nil => rfl
  | mk a b u iha ihb =>
    have hlt : cmp val u < 0 ↔ c2 val u < 0 := by
      rw [← Int.sign_eq_neg_one_iff_neg, ← Int.sign_eq_neg_one_iff_neg, h]
    have hgt : cmp val u > 0 ↔ c2 val u > 0 := by
      rw [gt_iff_lt, gt_iff_lt, ← Int.sign_eq_one_iff_pos, ← Int.sign_eq_one_iff_pos, h]
    simp only [findFrom, hlt, hgt, iha, ihb]

theorem insNode_congr (c2 : T → T → Int)
    (h : ∀ a b, Int.sign (cmp a b) = Int.sign (c2 a b)) (val : T) (n : node T) :
    insNode cmp val n = insNode c2 val n := by
  induction n with
  | nil => rfl
  | mk a b u iha ihb =>
    have hlt : cmp val u < 0 ↔ c2 val u < 0 := by
      rw [← Int.sign_eq_neg_one_iff_neg, ← Int.sign_eq_neg_one_iff_neg, h]
    have hgt : cmp val u > 0 ↔ c2 val u > 0 := by
      rw [gt_iff_lt, gt_iff_lt, ← Int.sign_eq_one_iff_pos, ← Int.sign_eq_one_iff_pos, h]
    simp only [insNode, hlt, hgt, iha, ihb]

theorem insNodes_congr (c2 : T → T → Int)
    (h : ∀ a b, Int.sign (cmp a b) = Int.sign (c2 a b)) (n : node T) (vs : List T) :
    insNodes cmp n vs = insNodes c2 n vs := by
  induction vs generalizing n with
  | nil => rfl
  | cons v vs ih => simp only [insNodes, insNode_congr cmp c2 h, ih]

theorem height_spineRight (vs : List T) : (spineRight vs).height = vs.length := by
  induction vs with
  | nil => rfl
  | cons v vs ih => simp [spineRight, node.height, ih]

theorem height_spineLeft (vs : List T) : (spineLeft vs).height = vs.length := by
  induction vs with
  | nil => rfl
  | cons v vs ih => simp [spineLeft, node.height, ih]

theorem insNode_spineRight (x : T) (done : List T) (h : ∀ y ∈ done, 0 < cmp x y) :
    insNode cmp x (spineRight done) = (spineRight (done ++ [x]), true) := by
  induction done with
  | nil => rfl
  | cons v vs ih =>
    have hv : 0 < cmp x v := h v (by simp)
    have hn : ¬ cmp x v < 0 := by omega
    have := ih (fun y hy => h y (by simp [hy]))
    simp [spineRight, insNode, hn, hv, this]

theorem insNode_spineLeft (x : T) (done : List T) (h : ∀ y ∈ done, cmp x y < 0) :
    insNode cmp x (spineLeft done) = (spineLeft (done ++ [x]), true) := by
  induction done with
  | nil => rfl
  | cons v vs ih =>
    have hv : cmp x v < 0 := h v (by simp)
    have := ih (fun y hy => h y (by simp [hy]))
    simp [spineLeft, insNode, hv, this]

theorem insNodes_spineRight (done vs : List T)
    (h : ∀ y ∈ done ++ vs, ∀ x ∈ vs, cmp y x < 0 → 0 < cmp x y)
    (hp : (done ++ vs).Pairwise (fun a b => cmp a b < 0)) :
    insNodes cmp (spineRight done) vs
      = (spineRight (done ++ vs), List.replicate vs.length true) := by
  induction vs generalizing done with
  | nil => simp [insNodes]
  | cons v vs ih =>
    have hp2 : (done ++ [v] ++ vs).Pairwise (fun a b => cmp a b < 0) := by simpa using hp
    have hlt : ∀ y ∈ done, cmp y v < 0 := by
      intro y hy
      exact (List.pairwise_append.mp hp).2.2 y hy v (by simp)
    have h1 := insNode_spineRight cmp v done
      (fun y hy => h y (by simp [hy]) v (by simp) (hlt y hy))
    have h2 := ih (done ++ [v])
      (fun y hy x hx => h y (by simpa using hy) x (by simp [hx])) hp2
    simp only [insNodes, h1, h2]
    simp [List.replicate_succ]

theorem insNodes_spineLeft (done vs : List T)
    (h : ∀ y ∈ done ++ vs, ∀ x ∈ vs, cmp y x > 0 → cmp x y < 0)
    (hp : (done ++ vs).Pairwise (fun a b => cmp a b > 0)) :
    insNodes cmp (spineLeft done) vs
      = (spineLeft (done ++ vs), List.replicate vs.length true) := by
  induction vs generalizing done with
  | nil => simp [insNodes]
  | cons v vs ih =>
    have hp2 : (done ++ [v] ++ vs).Pairwise (fun a b => cmp a b > 0) := by simpa using hp
    have hgt : ∀ y ∈ done, cmp y v > 0 := by
      intro y hy
      exact (List.pairwise_append.mp hp).2.2 y hy v (by simp)
    have h1 := insNode_spineLeft cmp v done
      (fun y hy => h y (by simp [hy]) v (by simp) (hgt y hy))
    have h2 := ih (done ++ [v])
      (fun y hy x hx => h y (by simpa using hy) x (by simp [hx])) hp2
    simp only [insNodes, h1, h2]
    simp [List.replicate_succ]

end core

/-! ## Map and Filter -/

section functional
variable {R : Type}

theorem mapLoop_eq (fn : T → R) (vs : List T) (done rest : List R)
    (h : rest.length = vs.length) :
    mapLoop fn done.length vs (done ++ rest) = done ++ vs.map fn := by
  induction vs generalizing done rest with
  | nil =>
    have : rest = [] := List.length_eq_zero.mp h
    simp [mapLoop, this]
  | cons v vs ih =>
    cases rest with
    | nil => simp at h
    | cons r rest =>
      have h2 : rest.length = vs.length := by simpa using h
      have := ih (done ++ [fn v]) rest h2
      simp only [mapLoop]
      rw [List.set_append_right _ _ (le_refl _)]
      simpa using this

theorem Map_eq_map [Inhabited R] (slice : List T) (fn : T → R) : Map slice fn = slice.map fn := by
  have := mapLoop_eq fn slice [] (List.replicate slice.length default) (by simp)
  simpa [Map] using this

theorem filterLoop_eq (keep : T → Bool) (vs out : List T) :
    filterLoop keep vs out = out ++ vs.filter keep := by
  induction vs generalizing out with
  | nil => simp [filterLoop]
  | cons v vs ih =>
    simp only [filterLoop, ih, List.filter_cons]
    split_ifs <;> simp

theorem Filter_eq_filter (slice : List T) (keep : T → Bool) :
    Filter slice keep = slice.filter keep := by
  simp [Filter, filterLoop_eq]

theorem reduceLoop_eq (fn : R → T → R) (vs : List T) (acc : R) :
    reduceLoop fn vs acc = vs.foldl fn acc := by
  induction vs generalizing acc with
  | nil => rfl
  | cons v vs ih => simp [reduceLoop, ih]

theorem collectKeys_eq {Key Value : Type} (m : List (Key × Value)) (acc : List Key) :
    collectKeys m acc = acc ++ m.map Prod.fst := by
  induction m generalizing acc with
  | nil => simp [collectKeys]
  | cons e m ih =>
    obtain ⟨k, v⟩ := e
    simp [collectKeys, ih]

theorem MapKeys_eq {Key Value : Type} (m : List (Key × Value)) :
    MapKeys m = m.map Prod.fst := by
  simp [MapKeys, collectKeys_eq]

theorem stringIntKeys_eq (m : List (GoString × Int)) (acc : List GoString) :
    stringIntKeys m acc = acc ++ m.map Prod.fst := by
  induction m generalizing acc with
  | nil => simp [stringIntKeys]
  | cons e m ih =>
    obtain ⟨k, v⟩ := e
    simp [stringIntKeys, ih]

theorem intBoolKeys_eq (m : List (Int × Bool)) (acc : List Int) :
    intBoolKeys m acc = acc ++ m.map Prod.fst := by
  induction m generalizing acc with
  | nil => simp [intBoolKeys]
  | cons e m ih =>
    obtain ⟨k, v⟩ := e
    simp [intBoolKeys, ih]

end functional

/-! ## Values and order after an insertion -/

section values
variable {cmp : T → T → Int}

theorem mem_vals_insNode (val x : T) (n : node T) :
    x ∈ (insNode cmp val n).1.vals ↔ x ∈ n.vals ∨ (x = val ∧ (insNode cmp val n).2 = true) := by
  induction n with
  | nil => simp [insNode, node.vals]
  | mk l r v ihl ihr =>
    simp only [insNode]
    split_ifs
    · simp only [node.vals, List.mem_append, List.mem_cons, ihl]; tauto
    · simp only [node.vals, List.mem_append, List.mem_cons, ihr]; tauto
    · simp

theorem ordered_insNode (val : T) (n : node T) (h : ordered cmp n) :
    ordered cmp (insNode cmp val n).1 := by
  induction n with
  | nil => simp [insNode, ordered, node.vals]
  | mk l r v ihl ihr =>
    obtain ⟨hl, hr, ol, or_⟩ := h
    simp only [insNode]
    split_ifs with h1 h2
    · refine ⟨?_, hr, ihl ol, or_⟩
      intro x hx
      rcases (mem_vals_insNode val x l).mp hx with hx | ⟨rfl, _⟩
      · exact hl x hx
      · exact h1
    · refine ⟨hl, ?_, ol, ihr or_⟩
      intro x hx
      rcases (mem_vals_insNode val x r).mp hx with hx | ⟨rfl, _⟩
      · exact hr x hx
      · exact h2
    · exact ⟨hl, hr, ol, or_⟩

/-- A rejected value compares equal to a stored one (any comparator). -/
theorem exists_eq_of_insNode_false (val : T) (n : node T) (h : (insNode cmp val n).2 = false) :
    ∃ y ∈ n.vals, cmp val y = 0 := by
  induction n with
  | nil => simp [insNode] at h
  | mk l r v ihl ihr =>
    simp only [insNode] at h
    split_ifs at h with h1 h2
    · obtain ⟨y, hy, e⟩ := ihl h
      exact ⟨y, by simp [node.vals, hy], e⟩
    · obtain ⟨y, hy, e⟩ := ihr h
      exact ⟨y, by simp [node.vals, hy], e⟩
    · exact ⟨v, by simp [node.vals], by omega⟩

/-- In an ordered tree a value that compares equal to a stored one is rejected. -/
theorem insNode_false_of_exists_eq (ho : IsTotalOrder cmp) (val : T) (n : node T)
    (h : ordered cmp n) (hex : ∃ y ∈ n.vals, cmp val y = 0) : (insNode cmp val n).2 = false := by
  induction n with
  | nil => simp [node.vals] at hex
  | mk l r v ihl ihr =>
    obtain ⟨hl, hr, ol, or_⟩ := h
    obtain ⟨y, hy, e⟩ := hex
    simp only [node.vals, List.mem_append, List.mem_cons] at hy
    simp only [insNode]
    split_ifs with h1 h2
    · apply ihl ol
      rcases hy with hy | rfl | hy
      · exact ⟨y, hy, e⟩
      · omega
      · exfalso
        have hvy : cmp v y < 0 := ho.neg_of_pos (hr y hy)
        have := ho.lt_of_lt_of_le h1 hvy.le
        omega
    · apply ihr or_
      rcases hy with hy | rfl | hy
      · exfalso
        have := ho.lt_of_le_of_lt e.le (hl y hy)
        omega
      · omega
      · exact ⟨y, hy, e⟩
    · rfl

theorem insNode_false_iff (ho : IsTotalOrder cmp) (val : T) (n : node T) (h : ordered cmp n) :
    (insNode cmp val n).2 = false ↔ ∃ y ∈ n.vals, cmp val y = 0 :=
  ⟨exists_eq_of_insNode_false val n, insNode_false_of_exists_eq ho val n h⟩

/-- The in-order listing of an ordered tree is strictly increasing. -/
theorem vals_pairwise (ho : IsTotalOrder cmp) (n : node T) (h : ordered cmp n) :
    n.vals.Pairwise (fun a b => cmp a b < 0) := by
  induction n with
  | nil => simp [node.vals]
  | mk l r v ihl ihr =>
    obtain ⟨hl, hr, ol, or_⟩ := h
    simp only [node.vals]
    rw [List.pairwise_append]
    refine ⟨ihl ol, ?_, ?_⟩
    · rw [List.pairwise_cons]
      exact ⟨fun b hb => ho.neg_of_pos (hr b hb), ihr or_⟩
    · intro a ha b hb
      rcases List.mem_cons.mp hb with rfl | hb
      · exact hl a ha
      · exact ho.lt_of_lt_of_le (hl a ha) (ho.neg_of_pos (hr b hb)).le

end values

/-! ## Sequences of insertions -/

section sequences
variable {cmp : T → T → Int}

theorem stringCmp_isTotalOrder : IsTotalOrder stringCmp := by
  refine ⟨?_, ?_, ?_⟩
  · intro a
    simp [stringCmp]
  · intro a b
    unfold stringCmp
    rcases lt_trichotomy a b with h | h | h
    · have h2 : ¬ b < a := lt_asymm h
      simp [h, h2]
    · subst h
      simp
    · have h2 : ¬ a < b := lt_asymm h
      simp [h, h2]
  · intro a b c
    unfold stringCmp
    intro hab hbc
    have h1 : ¬ b < a := by
      intro h
      have h2 : ¬ a < b := lt_asymm h
      simp [h, h2] at hab
    have h2 : ¬ c < b := by
      intro h
      have h2 : ¬ b < c := lt_asymm h
      simp [h, h2] at hbc
    have h3 : ¬ c < a := fun h => h1 (lt_of_le_of_lt (not_lt.mp h2) h)
    by_cases h4 : a < c <;> simp [h3, h4]

theorem tracks_nil : tracks cmp (node.nil : node T) [] := by
  simp [tracks, ordered, node.vals]

theorem tracks_insNode (ho : IsTotalOrder cmp) (val : T) (n : node T) (hist : List T)
    (h : tracks cmp n hist) : tracks cmp (insNode cmp val n).1 (hist ++ [val]) := by
  obtain ⟨hord, hsub, hcov⟩ := h
  refine ⟨ordered_insNode val n hord, ?_, ?_⟩
  · intro y hy
    rcases (mem_vals_insNode val y n).mp hy with hy | ⟨rfl, _⟩
    · exact List.mem_append_left _ (hsub y hy)
    · simp
  · intro x hx
    rcases List.mem_append.mp hx with hx | hx
    · obtain ⟨y, hy, e⟩ := hcov x hx
      exact ⟨y, (mem_vals_insNode val y n).mpr (Or.inl hy), e⟩
    · have hxv : x = val := by simpa using hx
      subst hxv
      cases hb : (insNode cmp x n).2
      · obtain ⟨y, hy, e⟩ := exists_eq_of_insNode_false x n hb
        exact ⟨y, (mem_vals_insNode x y n).mpr (Or.inl hy), e⟩
      · exact ⟨x, (mem_vals_insNode x x n).mpr (Or.inr ⟨rfl, hb⟩), ho.refl x⟩

theorem insNode_true_iff (ho : IsTotalOrder cmp) (val : T) (n : node T) (hist : List T)
    (h : tracks cmp n hist) : (insNode cmp val n).2 = true ↔ ∀ x ∈ hist, cmp x val ≠ 0 := by
  obtain ⟨hord, hsub, hcov⟩ := h
  constructor
  · intro ht x hx e
    obtain ⟨y, hy, e2⟩ := hcov x hx
    have hf := insNode_false_of_exists_eq ho val n hord ⟨y, hy, ho.eq_trans (ho.symm e) e2⟩
    rw [ht] at hf
    exact Bool.noConfusion hf
  · intro hall
    cases hb : (insNode cmp val n).2
    · obtain ⟨y, hy, e⟩ := exists_eq_of_insNode_false val n hb
      exact absurd (ho.symm e) (hall y (hsub y hy))
    · rfl

theorem length_insNodes (n : node T) (vs : List T) :
    (insNodes cmp n vs).2.length = vs.length := by
  induction vs generalizing n with
  | nil => simp [insNodes]
  | cons v vs ih => simp [insNodes, ih]

theorem tracks_insNodes (ho : IsTotalOrder cmp) (n : node T) (hist vs : List T)
    (h : tracks cmp n hist) : tracks cmp (insNodes cmp n vs).1 (hist ++ vs) := by
  induction vs generalizing n hist with
  | nil => simpa [insNodes] using h
  | cons v vs ih =>
    have := ih (insNode cmp v n).1 (hist ++ [v]) (tracks_insNode ho v n hist h)
    simpa [insNodes] using this

theorem insNodes_getElem (ho : IsTotalOrder cmp) (n : node T) (hist vs : List T)
    (h : tracks cmp n hist) (i : Nat) (hi : i < vs.length) :
    (insNodes cmp n vs).2[i]? = some true ↔ ∀ x ∈ hist ++ vs.take i, cmp x vs[i] ≠ 0 := by
  induction vs generalizing n hist i with
  | nil => simp at hi
  | cons v vs ih =>
    cases i with
    | zero =>
      simp only [insNodes, List.getElem?_cons_zero, Option.some.injEq, List.take_zero,
        List.append_nil, List.getElem_cons_zero]
      exact insNode_true_iff ho v n hist h
    | succ i =>
      have hi2 : i < vs.length := by simpa using hi
      have := ih (insNode cmp v n).1 (hist ++ [v]) (tracks_insNode ho v n hist h) i hi2
      simpa [insNodes] using this

theorem mem_vals_insNodes (n : node T) (vs : List T) (x : T) :
    x ∈ (insNodes cmp n vs).1.vals ↔ x ∈ n.vals ∨ x ∈ accepted vs (insNodes cmp n vs).2 := by
  induction vs generalizing n with
  | nil => simp [insNodes, accepted]
  | cons v vs ih =>
    simp only [insNodes]
    rw [ih, mem_vals_insNode]
    cases hb : (insNode cmp v n).2 <;> simp [accepted]
    tauto

theorem height_le_size (n : node T) : n.height ≤ n.size := by
  induction n with
  | nil => simp [node.height, node.size]
  | mk l r v ihl ihr =>
    simp only [node.height, node.size]
    omega

theorem size_insNodes (n : node T) (vs : List T) :
    (insNodes cmp n vs).1.size = n.size + (insNodes cmp n vs).2.count true := by
  induction vs generalizing n with
  | nil => simp [insNodes]
  | cons v vs ih =>
    simp only [insNodes]
    rw [ih, size_insNode]
    cases (insNode cmp v n).2
    · simp
    · simp
      omega

end sequences

/-! ## The claims on the tree -/

section claims

set_option maxRecDepth 8192 in
/-- C1: with a comparator that is a consistent total order, the i-th `Insert` of a sequence
inserted into an empty tree returns true if and only if no earlier element of the sequence
compares equal to the i-th one (one boolean is returned per element); and scenario A:
inserting 5, 3, 7, 3, 9, 1 with the integer comparator of `main` returns
true, true, true, false, true, true. -/
theorem Insert_true_iff_first (cmp : T → T → Int) (ho : IsTotalOrder cmp) (vs : List T) :
    (insertAll (Tree.new cmp) vs).2.length = vs.length ∧
    (∀ (i : Nat) (hi : i < vs.length),
      ((insertAll (Tree.new cmp) vs).2[i]? = some true ↔ ∀ x ∈ vs.take i, cmp x vs[i] ≠ 0)) ∧
    (insertAll (Tree.new intCmp) [5, 3, 7, 3, 9, 1]).2
      = [true, true, true, false, true, true] := by
  refine ⟨?_, ?_, by decide⟩
  · rw [insertAll_eq]
    exact length_insNodes _ vs
  · intro i hi
    rw [insertAll_eq]
    have := insNodes_getElem ho .nil [] vs tracks_nil i hi
    simpa [Tree.new] using this

/-- Witness of C1 on scenario B (the string comparator of `main` is a total order). -/
theorem Insert_true_iff_first_witness :
    IsTotalOrder stringCmp ∧
    (insertAll (Tree.new stringCmp)
      [str "go", str "java", str "cpp", str "go", str "rust"]).2.length
      = [str "go", str "java", str "cpp", str "go", str "rust"].length ∧
    (∀ (i : Nat) (hi : i < [str "go", str "java", str "cpp", str "go", str "rust"].length),
      ((insertAll (Tree.new stringCmp)
          [str "go", str "java", str "cpp", str "go", str "rust"]).2[i]? = some true ↔
        ∀ x ∈ [str "go", str "java", str "cpp", str "go", str "rust"].take i,
          stringCmp x [str "go", str "java", str "cpp", str "go", str "rust"][i] ≠ 0)) ∧
    (insertAll (Tree.new intCmp) [5, 3, 7, 3, 9, 1]).2
      = [true, true, true, false, true, true] :=
  ⟨stringCmp_isTotalOrder, Insert_true_iff_first stringCmp stringCmp_isTotalOrder
    [str "go", str "java", str "cpp", str "go", str "rust"]⟩

/-- C2: with a comparator that is a consistent total order, `Insert` into an ordered tree
gives an ordered tree (the comparator is kept), in which no two values compare equal;
hence every tree obtained from the empty tree by insertions is ordered. -/
theorem Insert_preserves_ordered (cmp : T → T → Int) (ho : IsTotalOrder cmp) (n : node T)
    (h : ordered cmp n) (val : T) :
    ordered cmp ((Tree.mk cmp n).Insert val).1.root ∧
    ((Tree.mk cmp n).Insert val).1.cmp = cmp ∧
    ((Tree.mk cmp n).Insert val).1.root.vals.Pairwise
      (fun a b => cmp a b ≠ 0 ∧ cmp b a ≠ 0) ∧
    (∀ vs : List T, ordered cmp (insertAll (Tree.new cmp) vs).1.root) := by
  refine ⟨?_, ?_, ?_, ?_⟩
  · rw [Insert_eq]
    exact ordered_insNode val n h
  · rw [Insert_eq]
  · rw [Insert_eq]
    refine (vals_pairwise ho _ (ordered_insNode val n h)).imp ?_
    intro a b hab
    have := ho.pos_of_neg hab
    constructor <;> omega
  · intro vs
    rw [insertAll_eq]
    exact (tracks_insNodes ho .nil [] vs tracks_nil).1

set_option maxRecDepth 8192 in
/-- Witness of C2: inserting "go" into the ordered string tree holding "java" with left
child "cpp". -/
theorem Insert_preserves_ordered_witness :
    IsTotalOrder stringCmp ∧
    ordered stringCmp (.mk (.mk .nil .nil (str "cpp")) .nil (str "java")) ∧
    ordered stringCmp ((Tree.mk stringCmp
      (.mk (.mk .nil .nil (str "cpp")) .nil (str "java"))).Insert (str "go")).1.root ∧
    ((Tree.mk stringCmp
      (.mk (.mk .nil .nil (str "cpp")) .nil (str "java"))).Insert (str "go")).1.cmp
      = stringCmp ∧
    ((Tree.mk stringCmp
      (.mk (.mk .nil .nil (str "cpp")) .nil (str "java"))).Insert (str "go")).1.root.vals.Pairwise
      (fun a b => stringCmp a b ≠ 0 ∧ stringCmp b a ≠ 0) ∧
    (∀ vs : List GoString, ordered stringCmp (insertAll (Tree.new stringCmp) vs).1.root) :=
  ⟨stringCmp_isTotalOrder, by simp [ordered, node.vals]; decide,
    Insert_preserves_ordered stringCmp stringCmp_isTotalOrder
      (.mk (.mk .nil .nil (str "cpp")) .nil (str "java"))
      (by simp [ordered, node.vals]; decide) (str "go")⟩

set_option maxRecDepth 8192 in
/-- C3: with a comparator that is a consistent total order, after inserting a sequence into
an empty tree the in-order listing of the tree is strictly increasing, every listed value
occurs in the sequence, and every element of the sequence compares equal to exactly one
listed value; scenario A ends with 1, 3, 5, 7, 9 and scenario B with cpp, go, java, rust. -/
theorem insertAll_vals_distinct (cmp : T → T → Int) (ho : IsTotalOrder cmp) (vs : List T) :
    (insertAll (Tree.new cmp) vs).1.root.vals.Pairwise (fun a b => cmp a b < 0) ∧
    (∀ y ∈ (insertAll (Tree.new cmp) vs).1.root.vals, y ∈ vs) ∧
    (∀ x ∈ vs, ∃! y, y ∈ (insertAll (Tree.new cmp) vs).1.root.vals ∧ cmp x y = 0) ∧
    (insertAll (Tree.new intCmp) [5, 3, 7, 3, 9, 1]).1.root.vals = [1, 3, 5, 7, 9] ∧
    (insertAll (Tree.new stringCmp)
      [str "go", str "java", str "cpp", str "go", str "rust"]).1.root.vals
      = [str "cpp", str "go", str "java", str "rust"] := by
  have ht := tracks_insNodes ho .nil [] vs tracks_nil
  have hp := vals_pairwise ho _ ht.1
  rw [insertAll_eq]
  simp only [Tree.new, List.nil_append] at ht ⊢
  refine ⟨hp, ht.2.1, ?_, by decide, by decide⟩
  intro x hx
  obtain ⟨y, hy, e⟩ := ht.2.2 x hx
  refine ⟨y, ⟨hy, e⟩, ?_⟩
  rintro z ⟨hz, ez⟩
  by_contra hne
  have hsym : Symmetric (fun a b : T => cmp a b ≠ 0) := fun a b hab hba => hab (ho.symm hba)
  have hp2 : (insNodes cmp node.nil vs).1.vals.Pairwise (fun a b => cmp a b ≠ 0) :=
    hp.imp (fun hab => by omega)
  exact hp2.forall hsym hz hy hne (ho.eq_trans (ho.symm ez) e)

/-- Witness of C3 on scenario B. -/
theorem insertAll_vals_distinct_witness :
    IsTotalOrder stringCmp ∧
    (insertAll (Tree.new stringCmp) [str "go", str "java", str "cpp", str "go",
      str "rust"]).1.root.vals.Pairwise (fun a b => stringCmp a b < 0) ∧
    (∀ y ∈ (insertAll (Tree.new stringCmp) [str "go", str "java", str "cpp", str "go",
      str "rust"]).1.root.vals, y ∈ [str "go", str "java", str "cpp", str "go", str "rust"]) ∧
    (∀ x ∈ [str "go", str "java", str "cpp", str "go", str "rust"],
      ∃! y, y ∈ (insertAll (Tree.new stringCmp) [str "go", str "java", str "cpp", str "go",
        str "rust"]).1.root.vals ∧ stringCmp x y = 0) ∧
    (insertAll (Tree.new intCmp) [5, 3, 7, 3, 9, 1]).1.root.vals = [1, 3, 5, 7, 9] ∧
    (insertAll (Tree.new stringCmp)
      [str "go", str "java", str "cpp", str "go", str "rust"]).1.root.vals
      = [str "cpp", str "go", str "java", str "rust"] :=
  ⟨stringCmp_isTotalOrder, insertAll_vals_distinct stringCmp stringCmp_isTotalOrder
    [str "go", str "java", str "cpp", str "go", str "rust"]⟩

/-- C4: for every comparator, tree and value, an `Insert` that returns false leaves the tree
as it was (same links, same values, same comparator, same size), and so does repeating it. -/
theorem Insert_false_unchanged (bt : Tree T) (val : T) (h : (bt.Insert val).2 = false) :
    (bt.Insert val).1 = bt ∧
    (bt.Insert val).1.root.size = bt.root.size ∧
    (bt.Insert val).1.Insert val = (bt, false) := by
  have h1 : (bt.Insert val).1 = bt := by
    unfold Tree.Insert at h ⊢
    simp only [] at h ⊢
    split_ifs at h ⊢ with hc
    rfl
  refine ⟨h1, by rw [h1], ?_⟩
  rw [h1]
  exact Prod.ext h1 h

set_option maxRecDepth 8192 in
/-- Witness of C4: inserting 3 a second time in scenario A. -/
theorem Insert_false_unchanged_witness :
    ((insertAll (Tree.new intCmp) [5, 3, 7]).1.Insert 3).2 = false ∧
    ((insertAll (Tree.new intCmp) [5, 3, 7]).1.Insert 3).1
      = (insertAll (Tree.new intCmp) [5, 3, 7]).1 ∧
    ((insertAll (Tree.new intCmp) [5, 3, 7]).1.Insert 3).1.root.size
      = (insertAll (Tree.new intCmp) [5, 3, 7]).1.root.size ∧
    ((insertAll (Tree.new intCmp) [5, 3, 7]).1.Insert 3).1.Insert 3
      = ((insertAll (Tree.new intCmp) [5, 3, 7]).1, false) :=
  ⟨by decide, Insert_false_unchanged (insertAll (Tree.new intCmp) [5, 3, 7]).1 3 (by decide)⟩

/-- C5: for every comparator, tree and value, an `Insert` that returns true replaces one link
of the tree that was empty (the link `find` returns) by a new node holding the value and
having no children: the comparator is kept, the number of nodes grows by one, and every
position other than that link holds the same value as before, or no node as before. -/
theorem Insert_true_extends_leaf (bt : Tree T) (val : T) (h : (bt.Insert val).2 = true) :
    isLink bt.root (bt.find val) ∧
    load bt.root (bt.find val) = .nil ∧
    (bt.Insert val).1.cmp = bt.cmp ∧
    (bt.Insert val).1.root = store bt.root (bt.find val) (.mk .nil .nil val) ∧
    load (bt.Insert val).1.root (bt.find val) = .mk .nil .nil val ∧
    (bt.Insert val).1.root.size = bt.root.size + 1 ∧
    (∀ p : Ptr, valAt (bt.Insert val).1.root p
      = if p = bt.find val then some val else valAt bt.root p) := by
  have hl : isLink bt.root (bt.find val) := isLink_findFrom bt.cmp val bt.root
  have hb : (insNode bt.cmp val bt.root).2 = true := by
    rw [Insert_eq] at h
    exact h
  have hn : load bt.root (bt.find val) = .nil := by
    rw [← isNil_eq_true]
    unfold Tree.find
    rw [load_findFrom]
    exact hb
  have hs : (bt.Insert val).1.root = store bt.root (bt.find val) (.mk .nil .nil val) := by
    rw [Insert_eq]
    exact (store_findFrom bt.cmp val bt.root hb).symm
  refine ⟨hl, hn, by rw [Insert_eq], hs, ?_, ?_, ?_⟩
  · rw [hs]
    exact load_store _ _ _ hl
  · rw [Insert_eq]
    simp only []
    rw [size_insNode, hb]
    simp
  · intro p
    rw [hs]
    exact valAt_store bt.root val (bt.find val) hl hn p

set_option maxRecDepth 8192 in
/-- Witness of C5: inserting 9 after 5, 3, 7 in scenario A. -/
theorem Insert_true_extends_leaf_witness :
    ((insertAll (Tree.new intCmp) [5, 3, 7]).1.Insert 9).2 = true ∧
    (insertAll (Tree.new intCmp) [5, 3, 7]).1.find 9 = [Side.right, Side.right] ∧
    ((insertAll (Tree.new intCmp) [5, 3, 7]).1.Insert 9).1.root.size = 3 + 1 ∧
    (∀ p : Ptr, valAt ((insertAll (Tree.new intCmp) [5, 3, 7]).1.Insert 9).1.root p
      = if p = (insertAll (Tree.new intCmp) [5, 3, 7]).1.find 9 then some 9
        else valAt (insertAll (Tree.new intCmp) [5, 3, 7]).1.root p) :=
  ⟨by decide, by decide,
    (Insert_true_extends_leaf (insertAll (Tree.new intCmp) [5, 3, 7]).1 9 (by decide)).2.2.2.2.2.1,
    (Insert_true_extends_leaf (insertAll (Tree.new intCmp) [5, 3, 7]).1 9 (by decide)).2.2.2.2.2.2⟩

/-- C6: with a comparator that is a consistent total order, in a tree built from the empty
tree by a sequence of `Insert` calls, `find` returns a link of the tree; that link holds a node
(whose value then compares equal to the searched value) if and only if the searched value
compares equal to one of the values whose `Insert` returned true, and it is empty otherwise. -/
theorem find_iff_accepted (cmp : T → T → Int) (ho : IsTotalOrder cmp) (vs : List T) (val : T) :
    isLink (insertAll (Tree.new cmp) vs).1.root ((insertAll (Tree.new cmp) vs).1.find val) ∧
    (∀ l r w, load (insertAll (Tree.new cmp) vs).1.root
        ((insertAll (Tree.new cmp) vs).1.find val) = .mk l r w → cmp val w = 0) ∧
    ((load (insertAll (Tree.new cmp) vs).1.root
        ((insertAll (Tree.new cmp) vs).1.find val)).isNil = false ↔
      ∃ x ∈ accepted vs (insertAll (Tree.new cmp) vs).2, cmp val x = 0) ∧
    ((¬ ∃ x ∈ accepted vs (insertAll (Tree.new cmp) vs).2, cmp val x = 0) →
      load (insertAll (Tree.new cmp) vs).1.root
        ((insertAll (Tree.new cmp) vs).1.find val) = .nil) := by
  have ht := tracks_insNodes ho .nil [] vs tracks_nil
  have hiff : (load (insertAll (Tree.new cmp) vs).1.root
        ((insertAll (Tree.new cmp) vs).1.find val)).isNil = false ↔
      ∃ x ∈ accepted vs (insertAll (Tree.new cmp) vs).2, cmp val x = 0 := by
    rw [insertAll_eq]
    simp only [Tree.new, Tree.find]
    rw [load_findFrom, insNode_false_iff ho val _ ht.1]
    constructor
    · rintro ⟨y, hy, e⟩
      rcases (mem_vals_insNodes .nil vs y).mp hy with hy | hy
      · simp [node.vals] at hy
      · exact ⟨y, hy, e⟩
    · rintro ⟨y, hy, e⟩
      exact ⟨y, (mem_vals_insNodes .nil vs y).mpr (Or.inr hy), e⟩
  refine ⟨isLink_findFrom _ val _, ?_, hiff, ?_⟩
  · intro l r w h
    have := load_findFrom_mk (insertAll (Tree.new cmp) vs).1.cmp val _ l r w h
    rw [insertAll_eq] at this
    exact this
  · intro hno
    rw [← isNil_eq_true]
    rw [← hiff] at hno
    simpa using hno

/-- Witness of C6 on scenario B, searching "java". -/
theorem find_iff_accepted_witness :
    IsTotalOrder stringCmp ∧
    ((load (insertAll (Tree.new stringCmp)
        [str "go", str "java", str "cpp", str "go", str "rust"]).1.root
        ((insertAll (Tree.new stringCmp)
          [str "go", str "java", str "cpp", str "go", str "rust"]).1.find (str "java"))).isNil
        = false ↔
      ∃ x ∈ accepted [str "go", str "java", str "cpp", str "go", str "rust"]
        (insertAll (Tree.new stringCmp)
          [str "go", str "java", str "cpp", str "go", str "rust"]).2,
        stringCmp (str "java") x = 0) :=
  ⟨stringCmp_isTotalOrder, (find_iff_accepted stringCmp stringCmp_isTotalOrder
    [str "go", str "java", str "cpp", str "go", str "rust"] (str "java")).2.2.1⟩

/-- C7, counterexample: with the nil comparator of a zero `Tree`, `Insert(1)` on the empty
tree returns true, and `Insert(2)` on the resulting tree of height 1 panics at the call of
`cmp`, within a budget of one comparator call; so does `Insert` with a closure that panics. -/
theorem Insert_nil_cmp_panics :
    InsertWithin (none : GoFunc Unit Int) .nil 1 0 () = .returns (.mk .nil .nil 1, true, ()) ∧
    (node.mk .nil .nil (1 : Int)).height = 1 ∧
    InsertWithin (none : GoFunc Unit Int) (.mk .nil .nil 1) 2 1 () = .panics ∧
    InsertWithin (some (fun _ _ _ => none) : GoFunc Unit Int) (.mk .nil .nil 1) 2 1 ()
      = .panics := by
  decide

/-- C7, as amended: for every tree, value and comparator that is a closure all of whose calls
return (any function of its arguments and of its captured state: no order is required of it),
the loop of `find` returns within as many comparator calls as the height of the tree (and
with any larger budget), the link it returns is a link of the tree at depth at most the
height, and `Insert` returns its boolean: false and the tree unchanged when that link holds
a node, true and the new leaf stored there otherwise. For a pure comparator these are the
results of `find` and `Insert`. With a nil comparator `Insert` returns true on the empty tree
and panics on every other tree. -/
theorem find_Insert_total_of_calls_return {S : Type} (f : S → T → T → Option (Int × S))
    (hf : ∀ s a b, ∃ c s2, f s a b = some (c, s2)) (root : node T) (val : T) (s : S)
    (extra : Nat) :
    (∃ pl s2, findLoop (some f) root val (root.height + extra) [] s = .returns (pl, s2) ∧
      isLink root pl ∧ pl.length ≤ root.height ∧
      InsertWithin (some f) root val (root.height + extra) s
        = .returns (if (load root pl).isNil = false then (root, false, s2)
            else (store root pl (.mk .nil .nil val), true, s2))) ∧
    (∀ cmp : T → T → Int,
      findLoop (pureFunc cmp) root val (root.height + extra) [] s
        = .returns ((Tree.mk cmp root).find val, s) ∧
      InsertWithin (pureFunc cmp) root val (root.height + extra) s
        = .returns (((Tree.mk cmp root).Insert val).1.root,
            ((Tree.mk cmp root).Insert val).2, s)) ∧
    InsertWithin (none : GoFunc S T) .nil val extra s = .returns (.mk .nil .nil val, true, s) ∧
    (∀ l r v, InsertWithin (none : GoFunc S T) (.mk l r v) val (extra + 1) s = .panics) := by
  refine ⟨?_, ?_, ?_, ?_⟩
  · obtain ⟨q, s2, hq, hlink, hlen⟩ :=
      findLoop_returns f hf root val (root.height + extra) [] s (by simp [load])
    simp only [List.nil_append, load] at hq hlink hlen
    refine ⟨q, s2, hq, hlink, hlen, ?_⟩
    unfold InsertWithin
    rw [hq]
    simp only []
    split_ifs <;> rfl
  · intro cmp
    have hp : findLoop (pureFunc cmp) root val (root.height + extra) [] s
        = .returns ((Tree.mk cmp root).find val, s) := by
      have := findLoop_pureFunc cmp root val (root.height + extra) [] s (by simp [load])
      simpa [load, Tree.find] using this
    refine ⟨hp, ?_⟩
    unfold InsertWithin Tree.Insert
    rw [hp]
    simp only []
    split_ifs <;> rfl
  · cases extra <;> simp [InsertWithin, findLoop, load, node.isNil, store]
  · intro l r v
    simp [InsertWithin, findLoop, load]

set_option maxRecDepth 8192 in
/-- Witness of C7 as amended: a comparator that counts its calls in its captured state,
searching 9 in the tree of 5, 3, 7 (height 2): two calls, and 9 is put at right, right. -/
theorem find_Insert_total_of_calls_return_witness :
    (∀ (s : Nat) (a b : Int), ∃ c s2,
      (fun (s : Nat) (a b : Int) => some (intCmp a b, s + 1)) s a b = some (c, s2)) ∧
    findLoop (some (fun (s : Nat) (a b : Int) => some (intCmp a b, s + 1)))
      (insertAll (Tree.new intCmp) [5, 3, 7]).1.root 9 2 [] 0
      = .returns ([Side.right, Side.right], 2) ∧
    (∃ pl s2, findLoop (some (fun (s : Nat) (a b : Int) => some (intCmp a b, s + 1)))
        (insertAll (Tree.new intCmp) [5, 3, 7]).1.root 9
        ((insertAll (Tree.new intCmp) [5, 3, 7]).1.root.height + 0) [] 0 = .returns (pl, s2) ∧
      isLink (insertAll (Tree.new intCmp) [5, 3, 7]).1.root pl ∧
      pl.length ≤ (insertAll (Tree.new intCmp) [5, 3, 7]).1.root.height ∧
      InsertWithin (some (fun (s : Nat) (a b : Int) => some (intCmp a b, s + 1)))
        (insertAll (Tree.new intCmp) [5, 3, 7]).1.root 9
        ((insertAll (Tree.new intCmp) [5, 3, 7]).1.root.height + 0) 0
        = .returns (if (load (insertAll (Tree.new intCmp) [5, 3, 7]).1.root pl).isNil = false
            then ((insertAll (Tree.new intCmp) [5, 3, 7]).1.root, false, s2)
            else (store (insertAll (Tree.new intCmp) [5, 3, 7]).1.root pl (.mk .nil .nil 9),
              true, s2))) :=
  ⟨fun s a b => ⟨intCmp a b, s + 1, rfl⟩, by decide,
    (find_Insert_total_of_calls_return
      (fun (s : Nat) (a b : Int) => some (intCmp a b, s + 1))
      (fun s a b => ⟨intCmp a b, s + 1, rfl⟩)
      (insertAll (Tree.new intCmp) [5, 3, 7]).1.root 9 0 0).1⟩

/-- C8, at the failing input: for the two `int` values 9223372036854775807 and -1 the
comparator `a - b` of `main` wraps to -9223372036854775808, a negative number, although the
first is greater than the second (and the swapped call is negative as well for
-9223372036854775808 and 1). -/
theorem intCmp_overflow :
    isInt64 9223372036854775807 ∧ isInt64 (-1) ∧
    intCmp 9223372036854775807 (-1) = -9223372036854775808 ∧
    ¬ ((9223372036854775807 : Int) < -1) ∧
    intCmp (-9223372036854775808) 1 = 9223372036854775807 ∧
    ((-9223372036854775808 : Int) < 1) := by
  decide

/-- C9: `Map` returns a slice of the same length whose i-th element is `fn` of the i-th
element of the input (so it is the mapped list; empty on the empty slice), and
`Map([1,2,3], double) = [2,4,6]`. -/
theorem Map_length_getElem [Inhabited R] (slice : List T) (fn : T → R) :
    (Map slice fn).length = slice.length ∧
    (∀ i : Nat, (Map slice fn)[i]? = slice[i]?.map fn) ∧
    Map slice fn = slice.map fn ∧
    Map ([] : List T) fn = [] ∧
    Map [1, 2, 3] (fun x : Int => 2 * x) = [2, 4, 6] := by
  refine ⟨?_, ?_, Map_eq_map slice fn, ?_, ?_⟩
  · simp [Map_eq_map]
  · intro i
    simp [Map_eq_map]
  · simp [Map_eq_map]
  · simp [Map_eq_map]

/-- C10: `Filter` returns the sublist of the input made of all and only the elements for which
`keep` is true, in their order and with their multiplicities: the result is a sublist of the
input, each of its elements is kept by `keep`, its length is the number of input elements
kept by `keep` (so none is dropped), and `Filter([1,2,3,4], isEven) = [2,4]`. -/
theorem Filter_keeps_exactly (slice : List T) (keep : T → Bool) :
    (Filter slice keep).Sublist slice ∧
    (∀ v ∈ Filter slice keep, keep v = true) ∧
    (∀ v ∈ slice, keep v = true → v ∈ Filter slice keep) ∧
    (Filter slice keep).length = slice.countP keep ∧
    Filter slice keep = slice.filter keep ∧
    Filter [1, 2, 3, 4] (fun x : Int => x % 2 == 0) = [2, 4] := by
  rw [Filter_eq_filter]
  refine ⟨List.filter_sublist slice, ?_, ?_, ?_, rfl, ?_⟩
  · intro v hv
    exact (List.mem_filter.mp hv).2
  · intro v hv hk
    exact List.mem_filter.mpr ⟨hv, hk⟩
  · exact (List.countP_eq_length_filter keep slice).symm
  · decide

/-- C11: `Reduce` is the left fold from the initial value: on the empty slice it returns
`init`, on a slice extended by one last element it applies `fn` to the result for the
shorter slice and that element, and `Reduce([1,2,3,4], 0, add) = 10`. -/
theorem Reduce_left_fold (slice : List T) (init : R) (fn : R → T → R) :
    Reduce ([] : List T) init fn = init ∧
    (∀ x : T, Reduce (slice ++ [x]) init fn = fn (Reduce slice init fn) x) ∧
    Reduce slice init fn = slice.foldl fn init ∧
    (∀ s0 s1 s2 : T, Reduce [s0, s1, s2] init fn = fn (fn (fn init s0) s1) s2) ∧
    Reduce [1, 2, 3, 4] (0 : Int) (fun acc v : Int => acc + v) = 10 := by
  refine ⟨rfl, ?_, reduceLoop_eq fn slice init, ?_, by decide⟩
  · intro x
    simp [Reduce, reduceLoop_eq]
  · intro s0 s1 s2
    rfl

/-- C12: for a map with unique keys and any order in which `range` visits its entries,
`MapKeys` returns as many keys as the map has entries, no key twice, and exactly the keys
of the map: its result is a permutation of the keys. -/
theorem MapKeys_all_keys {Key Value : Type} (m order : List (Key × Value)) (hm : isMap m)
    (horder : order.Perm m) :
    (MapKeys order).length = m.length ∧
    (MapKeys order).Nodup ∧
    (∀ k : Key, k ∈ MapKeys order ↔ ∃ v, (k, v) ∈ m) ∧
    (MapKeys order).Perm (m.map Prod.fst) := by
  have hp : (MapKeys order).Perm (m.map Prod.fst) := by
    rw [MapKeys_eq]
    exact horder.map Prod.fst
  refine ⟨?_, ?_, ?_, hp⟩
  · simpa using hp.length_eq
  · exact hp.nodup_iff.mpr hm
  · intro k
    rw [hp.mem_iff]
    simp

/-- Witness of C12 on scenario D: the fruit map visited in the order banana, cherry, apple. -/
theorem MapKeys_all_keys_witness :
    isMap [(str "apple", (5 : Int)), (str "banana", 3), (str "cherry", 7)] ∧
    [(str "banana", (3 : Int)), (str "cherry", 7), (str "apple", 5)].Perm
      [(str "apple", 5), (str "banana", 3), (str "cherry", 7)] ∧
    MapKeys [(str "banana", (3 : Int)), (str "cherry", 7), (str "apple", 5)]
      = [str "banana", str "cherry", str "apple"] ∧
    (MapKeys [(str "banana", (3 : Int)), (str "cherry", 7), (str "apple", 5)]).Perm
      ([(str "apple", (5 : Int)), (str "banana", 3), (str "cherry", 7)].map Prod.fst) :=
  ⟨by decide, by decide, by decide,
    (MapKeys_all_keys [(str "apple", (5 : Int)), (str "banana", 3), (str "cherry", 7)]
      [(str "banana", (3 : Int)), (str "cherry", 7), (str "apple", 5)]
      (by decide) (by decide)).2.2.2⟩

/-- C13, at the failing input: on the `int` values 5 and 3 the integer comparator of `main`
returns 2, which is none of -1, 0, +1 (the string comparator of `main` does return only
-1, 0 or +1). -/
theorem intCmp_not_three_valued :
    isInt64 5 ∧ isInt64 3 ∧ intCmp 5 3 = 2 ∧
    ¬ (intCmp 5 3 = -1 ∨ intCmp 5 3 = 0 ∨ intCmp 5 3 = 1) ∧
    (∀ a b : GoString, stringCmp a b = -1 ∨ stringCmp a b = 0 ∨ stringCmp a b = 1) := by
  refine ⟨by decide, by decide, by decide, by decide, ?_⟩
  intro a b
  unfold stringCmp
  split_ifs <;> simp

/-- C14: on the same visiting order `MapKeys` at (string, int) returns the same slice as
`ExtractStringIntMapKeys`, and `MapKeys` at (int, bool) the same slice as
`ExtractIntBoolMapKeys`; on two visiting orders of one map the results are permutations
of each other. -/
theorem MapKeys_eq_specialised (o1 o2 : List (GoString × Int)) (o3 o4 : List (Int × Bool))
    (h12 : o1.Perm o2) (h34 : o3.Perm o4) :
    MapKeys o1 = ExtractStringIntMapKeys o1 ∧
    MapKeys o3 = ExtractIntBoolMapKeys o3 ∧
    (MapKeys o1).Perm (ExtractStringIntMapKeys o2) ∧
    (MapKeys o3).Perm (ExtractIntBoolMapKeys o4) := by
  refine ⟨?_, ?_, ?_, ?_⟩
  · simp [MapKeys_eq, ExtractStringIntMapKeys, stringIntKeys_eq]
  · simp [MapKeys_eq, ExtractIntBoolMapKeys, intBoolKeys_eq]
  · simpa [MapKeys_eq, ExtractStringIntMapKeys, stringIntKeys_eq] using h12.map Prod.fst
  · simpa [MapKeys_eq, ExtractIntBoolMapKeys, intBoolKeys_eq] using h34.map Prod.fst

/-- Witness of C14 on the two maps of `main`, each visited in two different orders. -/
theorem MapKeys_eq_specialised_witness :
    [(str "banana", (3 : Int)), (str "cherry", 7), (str "apple", 5)].Perm
      [(str "apple", 5), (str "banana", 3), (str "cherry", 7)] ∧
    [((10 : Int), true), (20, false), (30, true)].Perm [(30, true), (10, true), (20, false)] ∧
    MapKeys [(str "banana", (3 : Int)), (str "cherry", 7), (str "apple", 5)]
      = ExtractStringIntMapKeys [(str "banana", 3), (str "cherry", 7), (str "apple", 5)] ∧
    MapKeys [((10 : Int), true), (20, false), (30, true)]
      = ExtractIntBoolMapKeys [(10, true), (20, false), (30, true)] ∧
    (MapKeys [(str "banana", (3 : Int)), (str "cherry", 7), (str "apple", 5)]).Perm
      (ExtractStringIntMapKeys [(str "apple", 5), (str "banana", 3), (str "cherry", 7)]) ∧
    (MapKeys [((10 : Int), true), (20, false), (30, true)]).Perm
      (ExtractIntBoolMapKeys [(30, true), (10, true), (20, false)]) :=
  ⟨by decide, by decide,
    MapKeys_eq_specialised [(str "banana", (3 : Int)), (str "cherry", 7), (str "apple", 5)]
      [(str "apple", 5), (str "banana", 3), (str "cherry", 7)]
      [((10 : Int), true), (20, false), (30, true)] [(30, true), (10, true), (20, false)]
      (by decide) (by decide)⟩

/-- C15: for every comparator and every sequence of `Insert` calls on an empty tree, the
number of nodes is the number of calls that returned true, and the height of the tree is at
most that number, hence at most the number of calls. -/
theorem height_le_insertions (cmp : T → T → Int) (vs : List T) :
    (insertAll (Tree.new cmp) vs).1.root.size = (insertAll (Tree.new cmp) vs).2.count true ∧
    (insertAll (Tree.new cmp) vs).1.root.height ≤ (insertAll (Tree.new cmp) vs).2.count true ∧
    (insertAll (Tree.new cmp) vs).2.count true ≤ vs.length ∧
    (insertAll (Tree.new cmp) vs).1.root.height ≤ vs.length := by
  have hs : (insertAll (Tree.new cmp) vs).1.root.size
      = (insertAll (Tree.new cmp) vs).2.count true := by
    rw [insertAll_eq]
    simpa [Tree.new, node.size] using @size_insNodes T cmp .nil vs
  have hh := height_le_size (insertAll (Tree.new cmp) vs).1.root
  have hc : (insertAll (Tree.new cmp) vs).2.count true ≤ vs.length := by
    have h1 := List.count_le_length true (insertAll (Tree.new cmp) vs).2
    have h2 : (insertAll (Tree.new cmp) vs).2.length = vs.length := by
      rw [insertAll_eq]
      exact length_insNodes _ vs
    omega
  refine ⟨hs, by omega, hc, by omega⟩

/-- C16: with a comparator that is a consistent total order, inserting a strictly increasing
sequence into an empty tree makes every `Insert` return true and gives the chain of `right`
links holding the sequence (every `left` link nil), of height the length of the sequence;
a strictly decreasing sequence gives the chain of `left` links in the same way. -/
theorem sorted_input_gives_spine (cmp : T → T → Int) (ho : IsTotalOrder cmp) (up down : List T)
    (hup : up.Chain' (fun a b => cmp a b < 0)) (hdown : down.Chain' (fun a b => cmp a b > 0)) :
    (insertAll (Tree.new cmp) up).2 = List.replicate up.length true ∧
    (insertAll (Tree.new cmp) up).1.root = spineRight up ∧
    (insertAll (Tree.new cmp) up).1.root.height = up.length ∧
    (insertAll (Tree.new cmp) down).2 = List.replicate down.length true ∧
    (insertAll (Tree.new cmp) down).1.root = spineLeft down ∧
    (insertAll (Tree.new cmp) down).1.root.height = down.length := by
  haveI : IsTrans T (fun a b => cmp a b < 0) :=
    ⟨fun a b c hab hbc => ho.lt_of_lt_of_le hab hbc.le⟩
  haveI : IsTrans T (fun a b => cmp a b > 0) := ⟨fun a b c hab hbc => ho.gt_trans hab hbc⟩
  have h1 := insNodes_spineRight cmp [] up (fun y _ x _ h => ho.pos_of_neg h)
    (by simpa using List.chain'_iff_pairwise.mp hup)
  have h2 := insNodes_spineLeft cmp [] down (fun y _ x _ h => ho.neg_of_pos h)
    (by simpa using List.chain'_iff_pairwise.mp hdown)
  simp only [List.nil_append, spineRight, spineLeft] at h1 h2
  rw [insertAll_eq, insertAll_eq]
  simp only [Tree.new, h1, h2, height_spineRight, height_spineLeft, and_self]

/-- Witness of C16: a, b, c and c, b, a with the string comparator of `main`. -/
theorem sorted_input_gives_spine_witness :
    IsTotalOrder stringCmp ∧
    [str "a", str "b", str "c"].Chain' (fun a b => stringCmp a b < 0) ∧
    [str "c", str "b", str "a"].Chain' (fun a b => stringCmp a b > 0) ∧
    (insertAll (Tree.new stringCmp) [str "a", str "b", str "c"]).2
      = List.replicate [str "a", str "b", str "c"].length true ∧
    (insertAll (Tree.new stringCmp) [str "a", str "b", str "c"]).1.root
      = spineRight [str "a", str "b", str "c"] ∧
    (insertAll (Tree.new stringCmp) [str "a", str "b", str "c"]).1.root.height
      = [str "a", str "b", str "c"].length ∧
    (insertAll (Tree.new stringCmp) [str "c", str "b", str "a"]).2
      = List.replicate [str "c", str "b", str "a"].length true ∧
    (insertAll (Tree.new stringCmp) [str "c", str "b", str "a"]).1.root
      = spineLeft [str "c", str "b", str "a"] ∧
    (insertAll (Tree.new stringCmp) [str "c", str "b", str "a"]).1.root.height
      = [str "c", str "b", str "a"].length :=
  ⟨stringCmp_isTotalOrder,
    by simp only [List.chain'_cons, List.chain'_singleton, and_true]; decide,
    by simp only [List.chain'_cons, List.chain'_singleton, and_true]; decide,
    sorted_input_gives_spine stringCmp stringCmp_isTotalOrder
      [str "a", str "b", str "c"] [str "c", str "b", str "a"]
      (by simp only [List.chain'_cons, List.chain'_singleton, and_true]; decide)
      (by simp only [List.chain'_cons, List.chain'_singleton, and_true]; decide)⟩

/-- C17: two comparators whose results have the same sign on every pair of arguments give,
on every tree, the same link from `find` and the same boolean and links from `Insert`, and
for every sequence inserted into an empty tree the same booleans and the same final links. -/
theorem same_sign_same_tree (c1 c2 : T → T → Int)
    (h : ∀ a b, Int.sign (c1 a b) = Int.sign (c2 a b)) (vs : List T) (n : node T) (val : T) :
    (insertAll (Tree.new c1) vs).2 = (insertAll (Tree.new c2) vs).2 ∧
    (insertAll (Tree.new c1) vs).1.root = (insertAll (Tree.new c2) vs).1.root ∧
    (Tree.mk c1 n).find val = (Tree.mk c2 n).find val ∧
    ((Tree.mk c1 n).Insert val).2 = ((Tree.mk c2 n).Insert val).2 ∧
    ((Tree.mk c1 n).Insert val).1.root = ((Tree.mk c2 n).Insert val).1.root := by
  refine ⟨?_, ?_, findFrom_congr c1 c2 h val n, ?_, ?_⟩
  · rw [insertAll_eq, insertAll_eq]
    simp only [Tree.new, insNodes_congr c1 c2 h]
  · rw [insertAll_eq, insertAll_eq]
    simp only [Tree.new, insNodes_congr c1 c2 h]
  · rw [Insert_eq, Insert_eq]
    simp only [insNode_congr c1 c2 h]
  · rw [Insert_eq, Insert_eq]
    simp only [insNode_congr c1 c2 h]

/-- Witness of C17: the comparator `a - b` of `main` and the comparator returning its sign
(-1, 0 or +1), on scenario A. -/
theorem same_sign_same_tree_witness :
    (∀ a b : Int, Int.sign (intCmp a b) = Int.sign (Int.sign (intCmp a b))) ∧
    (insertAll (Tree.new intCmp) [5, 3, 7, 3, 9, 1]).2
      = (insertAll (Tree.new (fun a b => Int.sign (intCmp a b))) [5, 3, 7, 3, 9, 1]).2 ∧
    (insertAll (Tree.new intCmp) [5, 3, 7, 3, 9, 1]).1.root
      = (insertAll (Tree.new (fun a b => Int.sign (intCmp a b))) [5, 3, 7, 3, 9, 1]).1.root :=
  ⟨fun _ _ => Int.sign_sign.symm,
    (same_sign_same_tree intCmp (fun a b => Int.sign (intCmp a b))
      (fun _ _ => Int.sign_sign.symm) [5, 3, 7, 3, 9, 1] .nil 0).1,
    (same_sign_same_tree intCmp (fun a b => Int.sign (intCmp a b))
      (fun _ _ => Int.sign_sign.symm) [5, 3, 7, 3, 9, 1] .nil 0).2.1⟩

/-- C18: assuming only that the comparator gives 0 on equal arguments, if `Insert` of a value
returned true on a tree reached from the empty tree, then after any further insertions `find`
of that value returns the link where the value was put, that link holds a node with this
value, and `Insert` of the value returns false and leaves the tree as it is. -/
theorem accepted_never_again (cmp : T → T → Int) (hrefl : ∀ x, cmp x x = 0)
    (before after : List T) (val : T)
    (h : ((insertAll (Tree.new cmp) before).1.Insert val).2 = true) :
    (insertAll ((insertAll (Tree.new cmp) before).1.Insert val).1 after).1.find val
      = (insertAll (Tree.new cmp) before).1.find val ∧
    (∃ l r, load (insertAll ((insertAll (Tree.new cmp) before).1.Insert val).1 after).1.root
      ((insertAll (Tree.new cmp) before).1.find val) = .mk l r val) ∧
    ((insertAll ((insertAll (Tree.new cmp) before).1.Insert val).1 after).1.Insert val).2
      = false ∧
    ((insertAll ((insertAll (Tree.new cmp) before).1.Insert val).1 after).1.Insert val).1
      = (insertAll ((insertAll (Tree.new cmp) before).1.Insert val).1 after).1 := by
  rw [Insert_eq] at h
  simp only [insertAll_eq, Insert_eq, Tree.new, Tree.find] at h ⊢
  obtain ⟨e1, hl1⟩ := find_after_insNode cmp val (hrefl val) _ h
  obtain ⟨e2, l2, r2, hl2⟩ := find_stable_insNodes cmp val after _ .nil .nil val
    (by rw [e1]; exact hl1)
  rw [e1] at e2 hl2
  have hf : (insNode cmp val (insNodes cmp (insNode cmp val
      (insNodes cmp node.nil before).1).1 after).1).2 = false := by
    rw [← load_findFrom, e2, hl2]
    rfl
  refine ⟨e2, ⟨l2, r2, hl2⟩, hf, ?_⟩
  rw [insNode_false cmp val _ hf]

set_option maxRecDepth 8192 in
/-- Witness of C18: 7 accepted after 5, 3 and inserted again after 3, 9, 1 (scenario A). -/
theorem accepted_never_again_witness :
    (∀ x : Int, intCmp x x = 0) ∧
    ((insertAll (Tree.new intCmp) [5, 3]).1.Insert 7).2 = true ∧
    ((insertAll ((insertAll (Tree.new intCmp) [5, 3]).1.Insert 7).1 [3, 9, 1]).1.Insert 7).2
      = false :=
  ⟨fun x => by simp [intCmp, wrap64], by decide,
    (accepted_never_again intCmp (fun x => by simp [intCmp, wrap64]) [5, 3] [3, 9, 1] 7
      (by decide)).2.2.1⟩

end claims

end Generics
